import Mathlib

/-!
Shallow embedding of the `tsd` time-series storage engine:
`src/tags.rs` (tag sets, tag expressions), `src/db.rs` (the `DB` engine) and
`src/lib.rs` (the `TinyTSDB` engine), together with theorems settling the
specification claims about them.

Modelling conventions:
* Rust `i64` timestamps become `Int` (no arithmetic in the code can overflow
  a claim here; overflow is not at issue in any claim).
* Rust `f64` sample values are never inspected by the engine (only stored,
  moved and returned), so the embedding is parametric in the value type `V`.
* Rust `HashMap` is modelled as its observable content: the tag map as an
  entry list in some iteration order, the slab index as a partial function
  from identity strings to slab lists.
* `Vec::sort` / `sort_by_key` (stable sorts) are modelled by the stable
  structural sort `List.insertionSort`.
* The wall-clock reads (`Utc::now().timestamp_nanos()`) are modelled by an
  explicit `now` argument threaded into the writing functions.
-/

/-- A tag set: the entries of the Rust `HashMap<String, String>` held by
`tags.rs: TagSet.tags` (and used directly as the tag-set type in `lib.rs`),
listed in some iteration order. -/
abbrev TagSet := List (String × String)

/-- Byte-wise lexicographic comparison of UTF-8 strings, as performed by
Rust `Vec<String>::sort`; on UTF-8 this coincides with code-point
lexicographic order, modelled here on the character lists. -/
def charListLe : List Char → List Char → Bool
  | [], _ => true
  | _ :: _, [] => false
  | a :: as, b :: bs => if a = b then charListLe as bs else decide (a < b)

/-- Rust `String` ordering lifted to Lean strings. -/
def strLe (a b : String) : Bool :=
  charListLe a.data b.data

/-- The propositional form of `strLe`, used as the sorting relation. -/
def strOrd (a b : String) : Prop :=
  strLe a b = true

instance : DecidableRel strOrd := fun a b => by
  unfold strOrd
  infer_instance

theorem charListLe_trans :
    ∀ {a b c : List Char}, charListLe a b = true → charListLe b c = true →
      charListLe a c = true := by
  intro a
  induction a with
  | nil => intro b c _ _; rfl
  | cons x xs ih =>
    intro b c hab hbc
    cases b with
    | nil => simp [charListLe] at hab
    | cons y ys =>
      cases c with
      | nil => simp [charListLe] at hbc
      | cons z zs =>
        simp only [charListLe] at hab hbc ⊢
        by_cases hxy : x = y
        · subst hxy
          by_cases hxz : x = z
          · subst hxz
            simp only [if_pos rfl] at hab hbc ⊢
            exact ih hab hbc
          · simp only [if_pos rfl] at hab
            simpa [hxz] using hbc
        · by_cases hyz : y = z
          · subst hyz
            simpa [hxy] using hab
          · simp only [if_neg hxy] at hab
            simp only [if_neg hyz] at hbc
            have hlt : x < z := lt_trans (of_decide_eq_true hab) (of_decide_eq_true hbc)
            simp [ne_of_lt hlt, hlt]

theorem charListLe_total :
    ∀ a b : List Char, charListLe a b = true ∨ charListLe b a = true := by
  intro a
  induction a with
  | nil => intro b; left; rfl
  | cons x xs ih =>
    intro b
    cases b with
    | nil => right; rfl
    | cons y ys =>
      by_cases hxy : x = y
      · subst hxy
        rcases ih ys with h | h
        · left; simpa [charListLe] using h
        · right; simpa [charListLe] using h
      · rcases lt_or_gt_of_ne hxy with h | h
        · left; simp [charListLe, hxy, h]
        · right; simp [charListLe, Ne.symm hxy, h]

theorem charListLe_antisymm :
    ∀ {a b : List Char}, charListLe a b = true → charListLe b a = true → a = b := by
  intro a
  induction a with
  | nil =>
    intro b _ hba
    cases b with
    | nil => rfl
    | cons y ys => simp [charListLe] at hba
  | cons x xs ih =>
    intro b hab hba
    cases b with
    | nil => simp [charListLe] at hab
    | cons y ys =>
      by_cases hxy : x = y
      · subst hxy
        simp only [charListLe, if_pos rfl] at hab hba
        exact congrArg (x :: ·) (ih hab hba)
      · simp only [charListLe, if_neg hxy, if_neg (Ne.symm hxy)] at hab hba
        exact absurd (of_decide_eq_true hba) (lt_asymm (of_decide_eq_true hab))

theorem string_data_inj : ∀ {a b : String}, a.data = b.data → a = b := by
  intro a b h
  cases a
  cases b
  exact congrArg String.mk h

instance : IsTrans String strOrd :=
  ⟨fun _ _ _ h₁ h₂ => charListLe_trans h₁ h₂⟩

instance : IsTotal String strOrd :=
  ⟨fun a b => charListLe_total a.data b.data⟩

instance : IsAntisymm String strOrd :=
  ⟨fun _ _ h₁ h₂ => string_data_inj (charListLe_antisymm h₁ h₂)⟩

/-- `tags.rs: TagSet::id` (and, identically, the `Identifiable` impl for
`TagSet` in `lib.rs`): format every pair as `key=value`, sort the strings,
join them with `,`. -/
def TagSet.id (ts : TagSet) : String :=
  String.intercalate "," (List.insertionSort strOrd (ts.map fun kv => kv.1 ++ "=" ++ kv.2))

/-- `tags.rs: TagSet::get`: `HashMap::get`, modelled as first-match lookup
over the entry list (keys of a `HashMap` are unique). -/
def TagSet.get (ts : TagSet) (key : String) : Option String :=
  match ts with
  | [] => none
  | kv :: rest => if kv.1 = key then some kv.2 else TagSet.get rest key

/-- `tags.rs: EqualityOp`. -/
inductive EqualityOp where
  | Equals
  | NotEquals
deriving DecidableEq

/-- `tags.rs: Equality`. -/
structure Equality where
  op : EqualityOp
  lhs : String
  rhs : String
deriving DecidableEq

/-- `tags.rs: LogicalOp`. -/
inductive LogicalOp where
  | And
  | Or
deriving DecidableEq

/-- `tags.rs: Logical` — a single equality or a right-nested chain. -/
inductive Logical where
  | Just (e : Equality)
  | Also (e : Equality) (op : LogicalOp) (tail : Logical)
deriving DecidableEq

/-- `tags.rs: TagSet::matches_eq`: look both operands up as keys and compare
the two `Option` results. -/
def TagSet.matches_eq (ts : TagSet) (equality : Equality) : Bool :=
  let is_equal := ts.get equality.lhs == ts.get equality.rhs
  match equality.op with
  | EqualityOp.Equals => is_equal
  | EqualityOp.NotEquals => !is_equal

/-- `tags.rs: TagSet::matches_logical`: recursive short-circuit evaluation
of a chain. -/
def TagSet.matches_logical (ts : TagSet) (logical : Logical) : Bool :=
  match logical with
  | Logical.Just e => ts.matches_eq e
  | Logical.Also e LogicalOp.And tail => ts.matches_eq e && ts.matches_logical tail
  | Logical.Also e LogicalOp.Or tail => ts.matches_eq e || ts.matches_logical tail

theorem insertionSort_strOrd_eq {l₁ l₂ : List String} (h : l₁.Perm l₂) :
    List.insertionSort strOrd l₁ = List.insertionSort strOrd l₂ :=
  List.eq_of_perm_of_sorted
    (((List.perm_insertionSort strOrd l₁).trans h).trans
      (List.perm_insertionSort strOrd l₂).symm)
    (List.sorted_insertionSort strOrd l₁)
    (List.sorted_insertionSort strOrd l₂)

/-- C3: `TagSet.id` returns the `key=value` strings sorted lexicographically
and joined with `,`; it is a pure function of the pair set — permuting the
pairs leaves the identity unchanged — and the empty tag set yields `""`. -/
theorem tagset_id_canonical :
    (∀ ts₁ ts₂ : TagSet, ts₁.Perm ts₂ → ts₁.id = ts₂.id) ∧
    TagSet.id [] = "" ∧
    (∀ ts : TagSet, ∃ l : List String,
      l.Perm (ts.map fun kv => kv.1 ++ "=" ++ kv.2) ∧
      l.Sorted strOrd ∧
      ts.id = String.intercalate "," l) := by
  refine ⟨fun ts₁ ts₂ h => ?_, rfl, fun ts => ?_⟩
  · unfold TagSet.id
    rw [insertionSort_strOrd_eq (h.map _)]
  · exact ⟨List.insertionSort strOrd _, List.perm_insertionSort _ _,
      List.sorted_insertionSort _ _, rfl⟩

theorem tagset_id_canonical_witness :
    TagSet.id [("b", "B"), ("a", "A")] = TagSet.id [("a", "A"), ("b", "B")] :=
  tagset_id_canonical.1 _ _ (List.Perm.swap ("a", "A") ("b", "B") [])

/-- C4: `matches_eq` looks both operands up as keys in the tag set, compares
the two lookup results (an absent key gives `none`, never equal to a present
value), and negates for `NotEquals`. -/
theorem matches_eq_lookup_semantics :
    (∀ (ts : TagSet) (l r : String),
      ts.matches_eq ⟨EqualityOp.Equals, l, r⟩ = true ↔ ts.get l = ts.get r) ∧
    (∀ (ts : TagSet) (l r : String),
      ts.matches_eq ⟨EqualityOp.NotEquals, l, r⟩ = true ↔ ts.get l ≠ ts.get r) ∧
    (∀ (ts : TagSet) (l r v : String),
      ts.get l = none → ts.get r = some v →
      ts.matches_eq ⟨EqualityOp.Equals, l, r⟩ = false) := by
  refine ⟨fun ts l r => ?_, fun ts l r => ?_, fun ts l r v hl hr => ?_⟩
  · simp [TagSet.matches_eq]
  · simp [TagSet.matches_eq]
  · simp [TagSet.matches_eq, hl, hr]

theorem matches_eq_lookup_semantics_witness :
    TagSet.matches_eq [("a", "A")] ⟨EqualityOp.Equals, "x", "a"⟩ = false :=
  matches_eq_lookup_semantics.2.2 [("a", "A")] "x" "a" "A" (by decide) (by decide)

/-- C6: chain evaluation short-circuits — an `And` chain with a false head is
false whatever the remainder, an `Or` chain with a true head is true whatever
the remainder, otherwise the chain evaluates to the remainder — and in
general a chain node is the right-associated boolean combination of its head
equality and its remainder. -/
theorem matches_logical_short_circuit :
    (∀ (ts : TagSet) (e : Equality) (t₁ t₂ : Logical),
      ts.matches_eq e = false →
      ts.matches_logical (Logical.Also e LogicalOp.And t₁) = false ∧
      ts.matches_logical (Logical.Also e LogicalOp.And t₁) =
        ts.matches_logical (Logical.Also e LogicalOp.And t₂)) ∧
    (∀ (ts : TagSet) (e : Equality) (t₁ t₂ : Logical),
      ts.matches_eq e = true →
      ts.matches_logical (Logical.Also e LogicalOp.Or t₁) = true ∧
      ts.matches_logical (Logical.Also e LogicalOp.Or t₁) =
        ts.matches_logical (Logical.Also e LogicalOp.Or t₂)) ∧
    (∀ (ts : TagSet) (e : Equality) (t : Logical),
      ts.matches_eq e = true →
      ts.matches_logical (Logical.Also e LogicalOp.And t) = ts.matches_logical t) ∧
    (∀ (ts : TagSet) (e : Equality) (t : Logical),
      ts.matches_eq e = false →
      ts.matches_logical (Logical.Also e LogicalOp.Or t) = ts.matches_logical t) ∧
    (∀ (ts : TagSet) (e : Equality) (op : LogicalOp) (t : Logical),
      ts.matches_logical (Logical.Also e op t) =
        match op with
        | LogicalOp.And => ts.matches_eq e && ts.matches_logical t
        | LogicalOp.Or => ts.matches_eq e || ts.matches_logical t) := by
  refine ⟨fun ts e t₁ t₂ h => ?_, fun ts e t₁ t₂ h => ?_, fun ts e t h => ?_,
    fun ts e t h => ?_, fun ts e op t => ?_⟩
  · constructor <;> simp [TagSet.matches_logical, h]
  · constructor <;> simp [TagSet.matches_logical, h]
  · simp [TagSet.matches_logical, h]
  · simp [TagSet.matches_logical, h]
  · cases op <;> rfl

theorem matches_logical_short_circuit_witness :
    TagSet.matches_logical []
      (Logical.Also ⟨EqualityOp.NotEquals, "a", "b"⟩ LogicalOp.And
        (Logical.Just ⟨EqualityOp.Equals, "a", "b"⟩)) = false :=
  (matches_logical_short_circuit.1 [] ⟨EqualityOp.NotEquals, "a", "b"⟩
    (Logical.Just ⟨EqualityOp.Equals, "a", "b"⟩)
    (Logical.Just ⟨EqualityOp.Equals, "a", "b"⟩) (by decide)).1

/-- `db.rs: Slab` — one time window for one tag-set identity. Parametric in
the sample value type `V`: the engine only stores, moves and returns the
`f64` values, never inspects them. -/
structure Slab (V : Type) where
  start_time : Int
  duration : Int
  times : List Int
  values : List V
  last_modified_time : Int
deriving DecidableEq

/-- `db.rs: Slab::new`: empty parallel sequences; `now` models the
`Utc::now().timestamp_nanos()` wall-clock read. -/
def Slab.new (V : Type) (start_time duration now : Int) : Slab V :=
  { start_time := start_time, duration := duration, times := [], values := [],
    last_modified_time := now }

/-- `db.rs: Slab::write`: push onto both sequences, refresh the stamp. -/
def Slab.write {V : Type} (s : Slab V) (time : Int) (value : V) (now : Int) : Slab V :=
  { s with
    times := s.times ++ [time]
    values := s.values ++ [value]
    last_modified_time := now }

/-- `db.rs: Config`. -/
structure Config where
  slab_duration : Int
deriving DecidableEq

/-- `db.rs: DB`: the configuration and the slab index; the
`HashMap<TagSetID, Vec<Slab>>` is modelled by its lookup function. -/
structure DB (V : Type) where
  config : Config
  hot_slabs : String → Option (List (Slab V))

/-- `db.rs: DB::new`. -/
def DB.new (V : Type) (config : Config) : DB V :=
  { config := config, hot_slabs := fun _ => none }

/-- The slab-selection predicate of `db.rs: DB::write`:
`x.start_time <= time && x.start_time + x.duration < time`. -/
def slabMatches {V : Type} (time : Int) (x : Slab V) : Bool :=
  decide (x.start_time ≤ time) && decide (x.start_time + x.duration < time)

/-- The slab-collection update performed by `db.rs: DB::write`:
`iter_mut().find` locates the first slab satisfying `slabMatches` and the
sample is appended to it in place; if none matches, a fresh slab
(`start_time = time`, `duration = slab_duration`) is pushed at the end and
written into. -/
def writeToSlabs {V : Type} (slabs : List (Slab V)) (time : Int) (value : V)
    (slab_duration now : Int) : List (Slab V) :=
  match slabs with
  | [] => [(Slab.new V time slab_duration now).write time value now]
  | s :: rest =>
    if slabMatches time s then s.write time value now :: rest
    else s :: writeToSlabs rest time value slab_duration now

/-- `db.rs: DB::write`: `entry(id).or_insert(vec![])` followed by the
find-or-create append of `writeToSlabs`. -/
def DB.write {V : Type} (db : DB V) (tag_set : TagSet) (time : Int) (value : V)
    (now : Int) : DB V :=
  let tid := tag_set.id
  let slabs := (db.hot_slabs tid).getD []
  { db with hot_slabs := fun k =>
      if k = tid then
        some (writeToSlabs slabs time value db.config.slab_duration now)
      else db.hot_slabs k }

/-- One slab's contribution to `db.rs: DB::read`: the slab is skipped
entirely when its window misses the query window, otherwise the loop over
`times.iter().enumerate()` with the index-aligned `values[i]` (the zip of
the parallel sequences) keeps the points with `start_time <= t < stop_time`. -/
def Slab.collect {V : Type} (s : Slab V) (start_time stop_time : Int) :
    List (Int × V) :=
  if s.start_time ≥ stop_time ∨ s.start_time + s.duration ≤ start_time then []
  else (s.times.zip s.values).filter fun p =>
    decide (p.1 ≥ start_time) && decide (p.1 < stop_time)

/-- The ordering used by `points.sort_by_key(|p| p.0)`: compare timestamps. -/
def ptOrd {V : Type} (p q : Int × V) : Prop :=
  p.1 ≤ q.1

instance {V : Type} : DecidableRel (ptOrd (V := V)) := fun p q => by
  unfold ptOrd
  infer_instance

instance {V : Type} : IsTotal (Int × V) ptOrd :=
  ⟨fun p q => le_total p.1 q.1⟩

instance {V : Type} : IsTrans (Int × V) ptOrd :=
  ⟨fun _ _ _ h₁ h₂ => le_trans h₁ h₂⟩

/-- `db.rs: DB::read`: empty series for an unknown identity; otherwise
collect the in-range points of the overlapping slabs, sort by timestamp
(`sort_by_key`, a stable sort), and `unzip`. -/
def DB.read {V : Type} (db : DB V) (tag_set : TagSet)
    (start_time stop_time : Int) : List Int × List V :=
  match db.hot_slabs tag_set.id with
  | none => ([], [])
  | some slabs =>
    let points := slabs.flatMap fun s => s.collect start_time stop_time
    (List.insertionSort ptOrd points).unzip

/-- C1: `DB::write` publishes, under the tag set's identity, the result of
the find-or-create append; the append goes into the first slab (in
collection order) satisfying `start_time <= time ∧ start_time + duration <
time`, and when no slab satisfies the predicate a fresh slab with
`start_time = time` and `duration = slab_duration` is appended at the end of
the collection and receives the sample. -/
theorem write_selects_first_matching_slab :
    (∀ (V : Type) (db : DB V) (ts : TagSet) (time : Int) (value : V) (now : Int),
      (db.write ts time value now).hot_slabs ts.id =
        some (writeToSlabs ((db.hot_slabs ts.id).getD []) time value
          db.config.slab_duration now)) ∧
    (∀ (V : Type) (slabs : List (Slab V)) (time : Int) (value : V) (dur now : Int),
      (∀ s ∈ slabs, slabMatches time s = false) →
      writeToSlabs slabs time value dur now =
        slabs ++ [{ start_time := time
                    duration := dur
                    times := [time]
                    values := [value]
                    last_modified_time := now }]) ∧
    (∀ (V : Type) (pre post : List (Slab V)) (s : Slab V) (time : Int)
        (value : V) (dur now : Int),
      (∀ x ∈ pre, slabMatches time x = false) →
      slabMatches time s = true →
      writeToSlabs (pre ++ s :: post) time value dur now =
        pre ++ s.write time value now :: post) := by
  refine ⟨fun V db ts time value now => ?_, fun V slabs time value dur now h => ?_,
    fun V pre post s time value dur now hpre hs => ?_⟩
  · simp [DB.write]
  · induction slabs with
    | nil => simp [writeToSlabs, Slab.new, Slab.write]
    | cons s rest ih =>
      have hhead : slabMatches time s = false := h s (List.mem_cons_self s rest)
      simp only [writeToSlabs, hhead, Bool.false_eq_true, if_false, List.cons_append,
        List.cons.injEq, true_and]
      exact ih fun x hx => h x (List.mem_cons_of_mem s hx)
  · induction pre with
    | nil => simp [writeToSlabs, hs]
    | cons p pre' ih =>
      have hhead : slabMatches time p = false := hpre p (List.mem_cons_self p pre')
      simp only [List.cons_append, writeToSlabs, hhead, Bool.false_eq_true, if_false,
        List.cons.injEq, true_and]
      exact ih fun x hx => hpre x (List.mem_cons_of_mem p hx)

theorem write_selects_first_matching_slab_witness :
    writeToSlabs [(⟨0, 10, [5], [1], 0⟩ : Slab Nat)] 11 2 10 99 =
      [Slab.write (⟨0, 10, [5], [1], 0⟩ : Slab Nat) 11 2 99] :=
  write_selects_first_matching_slab.2.2 Nat [] [] ⟨0, 10, [5], [1], 0⟩ 11 2 10 99
    (by simp) (by decide)

/-- The parallel-sequence invariant of a slab: timestamps and values have
equal length (spec §3, Slab). -/
def Slab.WF {V : Type} (s : Slab V) : Prop :=
  s.times.length = s.values.length

/-- The engine-wide slab invariant: every slab stored in the index is
well-formed. -/
def DB.WF {V : Type} (db : DB V) : Prop :=
  ∀ tid slabs, db.hot_slabs tid = some slabs → ∀ s ∈ slabs, s.WF

theorem writeToSlabs_WF {V : Type} {slabs : List (Slab V)} {time : Int}
    {value : V} {dur now : Int} (h : ∀ s ∈ slabs, s.WF) :
    ∀ s ∈ writeToSlabs slabs time value dur now, s.WF := by
  induction slabs with
  | nil =>
    intro s hs
    simp only [writeToSlabs, List.mem_singleton] at hs
    subst hs
    simp [Slab.new, Slab.write, Slab.WF]
  | cons p rest ih =>
    intro s hs
    by_cases hp : slabMatches time p
    · simp only [writeToSlabs, hp, if_true, List.mem_cons] at hs
      rcases hs with hs | hs
      · subst hs
        have := h p (List.mem_cons_self p rest)
        simp only [Slab.WF, Slab.write, List.length_append, List.length_singleton]
          at this ⊢
        omega
      · exact h s (List.mem_cons_of_mem p hs)
    · simp only [writeToSlabs, hp, Bool.false_eq_true, if_false, List.mem_cons] at hs
      rcases hs with hs | hs
      · subst hs
        exact h s (List.mem_cons_self s rest)
      · exact ih (fun x hx => h x (List.mem_cons_of_mem p hx)) s hs

/-- C9: a new slab has equal-length (empty) sequences; `Slab::write` appends
the timestamp and the value at the same fresh position and refreshes the
last-modified stamp, preserving the parallel invariant; `DB::write`
preserves the invariant for every stored slab, and a fresh engine satisfies
it. -/
theorem slab_parallel_invariant :
    (∀ (V : Type) (start dur now : Int), (Slab.new V start dur now).WF) ∧
    (∀ (V : Type) (s : Slab V) (t : Int) (v : V) (now : Int), s.WF →
      (s.write t v now).WF ∧
      (s.write t v now).last_modified_time = now ∧
      (s.write t v now).times = s.times ++ [t] ∧
      (s.write t v now).values = s.values ++ [v]) ∧
    (∀ (V : Type) (config : Config), (DB.new V config).WF) ∧
    (∀ (V : Type) (db : DB V) (ts : TagSet) (t : Int) (v : V) (now : Int),
      db.WF → (db.write ts t v now).WF) := by
  refine ⟨fun V start dur now => rfl, fun V s t v now h => ?_,
    fun V config tid slabs hsl => by simp [DB.new] at hsl,
    fun V db ts t v now h => ?_⟩
  · refine ⟨?_, rfl, rfl, rfl⟩
    simp only [Slab.WF] at h
    simp only [Slab.WF, Slab.write, List.length_append, List.length_singleton]
    omega

  · intro tid slabs hsl s hs
    simp only [DB.write] at hsl
    by_cases htid : tid = ts.id
    · simp only [htid, if_true] at hsl
      cases hsl
      refine writeToSlabs_WF ?_ s hs
      intro x hx
      cases hdb : db.hot_slabs ts.id with
      | none => simp [hdb] at hx
      | some old => exact h ts.id old hdb x (by simpa [hdb] using hx)
    · simp only [htid, if_false] at hsl
      exact h tid slabs hsl s hs

theorem slab_parallel_invariant_witness :
    (Slab.write (⟨0, 10, [1], [2], 0⟩ : Slab Nat) 5 7 99).WF ∧
    (Slab.write (⟨0, 10, [1], [2], 0⟩ : Slab Nat) 5 7 99).last_modified_time = 99 ∧
    (Slab.write (⟨0, 10, [1], [2], 0⟩ : Slab Nat) 5 7 99).times = [1] ++ [5] ∧
    (Slab.write (⟨0, 10, [1], [2], 0⟩ : Slab Nat) 5 7 99).values = [2] ++ [7] :=
  slab_parallel_invariant.2.1 Nat ⟨0, 10, [1], [2], 0⟩ 5 7 99 rfl

/-- C8: a write touches only the slab collection of the written identity —
reading any tag set with a different identity is unchanged by it. -/
theorem write_isolated_across_identities :
    ∀ (V : Type) (db : DB V) (ts₁ ts₂ : TagSet) (time : Int) (v : V)
      (now a b : Int),
      ts₂.id ≠ ts₁.id →
      (db.write ts₁ time v now).read ts₂ a b = db.read ts₂ a b := by
  intro V db ts₁ ts₂ time v now a b h
  simp [DB.read, DB.write, h]

theorem write_isolated_across_identities_witness :
    ((DB.new Nat ⟨10⟩).write [("a", "A")] 5 7 0).read [("b", "B")] 0 50 =
      (DB.new Nat ⟨10⟩).read [("b", "B")] 0 50 :=
  write_isolated_across_identities Nat (DB.new Nat ⟨10⟩) [("a", "A")]
    [("b", "B")] 5 7 0 0 50 (by decide)

theorem collect_empty_of_le {V : Type} {s : Slab V} {a b : Int} (hba : b ≤ a) :
    s.collect a b = [] := by
  unfold Slab.collect
  split
  · rfl
  · rw [List.filter_eq_nil_iff]
    intro p _
    simp only [Bool.and_eq_true, decide_eq_true_eq, ge_iff_le, not_and]
    intro h1 h2
    omega

/-- C7: reads are total and silent at the edges of the domain — a fresh
engine, an identity that was never written, and an empty or inverted query
window all yield two empty sequences rather than an error. -/
theorem read_is_total :
    (∀ (V : Type) (db : DB V) (ts : TagSet) (a b : Int),
      db.hot_slabs ts.id = none → db.read ts a b = ([], [])) ∧
    (∀ (V : Type) (config : Config) (ts : TagSet) (a b : Int),
      (DB.new V config).read ts a b = ([], [])) ∧
    (∀ (V : Type) (db : DB V) (ts : TagSet) (a b : Int),
      b ≤ a → db.read ts a b = ([], [])) := by
  refine ⟨fun V db ts a b h => by simp [DB.read, h],
    fun V config ts a b => by simp [DB.read, DB.new],
    fun V db ts a b hba => ?_⟩
  cases h : db.hot_slabs ts.id with
  | none => simp [DB.read, h]
  | some slabs =>
    have hcol : (slabs.flatMap fun s => s.collect a b) = [] := by
      induction slabs with
      | nil => rfl
      | cons s rest ih => simp [List.flatMap_cons, collect_empty_of_le hba, ih]
    simp [DB.read, h, hcol]

theorem read_is_total_witness :
    ((DB.new Nat ⟨10⟩).write [("a", "A")] 5 7 0).read [("a", "A")] 9 3 = ([], []) :=
  read_is_total.2.2 Nat (((DB.new Nat ⟨10⟩).write [("a", "A")] 5 7 0))
    [("a", "A")] 9 3 (by decide)

/-- The points the spec's read algorithm keeps (spec §4.2, read steps 2–3):
the slabs whose window overlaps the half-open query window, restricted to
the points with `startTime <= t < stopTime`; stated as filter-then-gather,
independently of `Slab.collect`'s skip-and-continue loop. -/
def specKept {V : Type} (slabs : List (Slab V)) (a b : Int) : List (Int × V) :=
  (slabs.filter fun s =>
      !(decide (s.start_time ≥ b) || decide (s.start_time + s.duration ≤ a))).flatMap
    fun s => (s.times.zip s.values).filter fun p =>
      decide (p.1 ≥ a) && decide (p.1 < b)

theorem flatMap_collect_eq_specKept {V : Type} (slabs : List (Slab V))
    (a b : Int) :
    (slabs.flatMap fun s => s.collect a b) = specKept slabs a b := by
  induction slabs with
  | nil => rfl
  | cons s rest ih =>
    by_cases hskip : s.start_time ≥ b ∨ s.start_time + s.duration ≤ a
    · have h1 : s.collect a b = [] := by
        simp [Slab.collect, hskip]
      have h2 : specKept (s :: rest) a b = specKept rest a b := by
        unfold specKept
        rw [List.filter_cons]
        have hc : (!(decide (s.start_time ≥ b) ||
            decide (s.start_time + s.duration ≤ a))) = false := by
          rcases hskip with h | h <;> simp [h]
        rw [hc]
        simp
      rw [List.flatMap_cons, h1, List.nil_append, ih, h2]
    · have h1 : s.collect a b =
          (s.times.zip s.values).filter fun p =>
            decide (p.1 ≥ a) && decide (p.1 < b) := by
        simp only [Slab.collect, hskip, if_false]
      have h2 : specKept (s :: rest) a b =
          ((s.times.zip s.values).filter fun p =>
            decide (p.1 ≥ a) && decide (p.1 < b)) ++ specKept rest a b := by
        unfold specKept
        rw [List.filter_cons]
        push_neg at hskip
        have hc : (!(decide (s.start_time ≥ b) ||
            decide (s.start_time + s.duration ≤ a))) = true := by
          simp [not_le.mpr hskip.1, not_le.mpr hskip.2]
        rw [hc]
        simp [List.flatMap_cons]
      rw [List.flatMap_cons, h1, ih, h2]

/-- C2: every read returns two index-aligned sequences of equal length whose
zipped points are exactly (a permutation of) the stored points of the
queried identity that lie in an overlapping slab and satisfy
`startTime <= t < stopTime`, and the timestamp sequence is sorted
ascending. -/
theorem read_filtered_sorted :
    ∀ (V : Type) (db : DB V) (ts : TagSet) (a b : Int),
      (db.read ts a b).1.length = (db.read ts a b).2.length ∧
      ((db.read ts a b).1.zip (db.read ts a b).2).Perm
        (specKept ((db.hot_slabs ts.id).getD []) a b) ∧
      List.Sorted (· ≤ ·) (db.read ts a b).1 := by
  intro V db ts a b
  cases h : db.hot_slabs ts.id with
  | none =>
    have hread0 : db.read ts a b = ([], []) := by
      simp [DB.read, h]
    rw [hread0]
    exact ⟨rfl, by simp [specKept], by simp⟩
  | some slabs =>
    have hread : db.read ts a b =
        (List.insertionSort ptOrd (slabs.flatMap fun s => s.collect a b)).unzip := by
      simp [DB.read, h]
    refine ⟨?_, ?_, ?_⟩
    · rw [hread, List.unzip_fst, List.unzip_snd]
      simp
    · rw [hread, List.zip_unzip]
      simp only [Option.getD_some]
      refine (List.perm_insertionSort ptOrd _).trans ?_
      rw [flatMap_collect_eq_specKept]
    · rw [hread, List.unzip_fst]
      have hp : List.Pairwise ptOrd
          (List.insertionSort ptOrd (slabs.flatMap fun s => s.collect a b)) :=
        List.sorted_insertionSort ptOrd _
      exact hp.map Prod.fst fun p q hpq => hpq

namespace Lib

/-- `lib.rs`: the `Identifiable` impl for `TagSet` — the same formula as
`tags.rs: TagSet::id`. -/
def tagSetId (ts : TagSet) : String :=
  String.intercalate "," (List.insertionSort strOrd (ts.map fun kv => kv.1 ++ "=" ++ kv.2))

/-- `lib.rs: Slab`. -/
structure Slab (V : Type) where
  start_time : Int
  duration : Int
  times : List Int
  values : List V
  last_modified_time : Int
deriving DecidableEq

/-- `lib.rs: Slab::new`. -/
def Slab.new (V : Type) (start_time duration now : Int) : Slab V :=
  { start_time := start_time, duration := duration, times := [], values := [],
    last_modified_time := now }

/-- `lib.rs: Slab::write`. -/
def Slab.write {V : Type} (s : Slab V) (time : Int) (value : V) (now : Int) : Slab V :=
  { s with
    times := s.times ++ [time]
    values := s.values ++ [value]
    last_modified_time := now }

/-- `lib.rs: Config`. -/
structure Config where
  slab_duration : Int
deriving DecidableEq

/-- `lib.rs: TinyTSDB`. -/
structure TinyTSDB (V : Type) where
  config : Config
  hot_slabs : String → Option (List (Slab V))

/-- `lib.rs: TinyTSDB::new`. -/
def TinyTSDB.new (V : Type) (config : Config) : TinyTSDB V :=
  { config := config, hot_slabs := fun _ => none }

/-- The slab-selection predicate of `lib.rs: TinyTSDB::write`. -/
def slabSelect {V : Type} (time : Int) (x : Slab V) : Bool :=
  decide (x.start_time ≤ time) && decide (x.start_time + x.duration < time)

/-- The find-or-create append of `lib.rs: TinyTSDB::write`. -/
def writeSlabList {V : Type} (slabs : List (Slab V)) (time : Int) (value : V)
    (slab_duration now : Int) : List (Slab V) :=
  match slabs with
  | [] => [(Slab.new V time slab_duration now).write time value now]
  | s :: rest =>
    if slabSelect time s then s.write time value now :: rest
    else s :: writeSlabList rest time value slab_duration now

/-- `lib.rs: TinyTSDB::write`. -/
def TinyTSDB.write {V : Type} (db : TinyTSDB V) (tag_set : TagSet) (time : Int)
    (value : V) (now : Int) : TinyTSDB V :=
  let tid := tagSetId tag_set
  let slabs := (db.hot_slabs tid).getD []
  { db with hot_slabs := fun k =>
      if k = tid then
        some (writeSlabList slabs time value db.config.slab_duration now)
      else db.hot_slabs k }

/-- One slab's contribution to `lib.rs: TinyTSDB::read`. -/
def Slab.collect {V : Type} (s : Slab V) (start_time stop_time : Int) :
    List (Int × V) :=
  if s.start_time ≥ stop_time ∨ s.start_time + s.duration ≤ start_time then []
  else (s.times.zip s.values).filter fun p =>
    decide (p.1 ≥ start_time) && decide (p.1 < stop_time)

/-- `lib.rs: TinyTSDB::read`. -/
def TinyTSDB.read {V : Type} (db : TinyTSDB V) (tag_set : TagSet)
    (start_time stop_time : Int) : List Int × List V :=
  match db.hot_slabs (tagSetId tag_set) with
  | none => ([], [])
  | some slabs =>
    let points := slabs.flatMap fun s => s.collect start_time stop_time
    (List.insertionSort ptOrd points).unzip

end Lib

/-- Field-for-field correspondence between the structurally identical slab
types of `db.rs` and `lib.rs`. -/
def slabToLib {V : Type} (s : Slab V) : Lib.Slab V :=
  ⟨s.start_time, s.duration, s.times, s.values, s.last_modified_time⟩

/-- Correspondence between the two engine states. -/
def dbToLib {V : Type} (db : DB V) : Lib.TinyTSDB V :=
  ⟨⟨db.config.slab_duration⟩, fun k => (db.hot_slabs k).map (List.map slabToLib)⟩

theorem writeSlabList_toLib {V : Type} (slabs : List (Slab V)) (t : Int)
    (v : V) (d now : Int) :
    Lib.writeSlabList (slabs.map slabToLib) t v d now =
      (writeToSlabs slabs t v d now).map slabToLib := by
  induction slabs with
  | nil => rfl
  | cons s rest ih =>
    by_cases hs : slabMatches t s
    · have hs' : Lib.slabSelect t (slabToLib s) = true := hs
      simp only [List.map_cons, Lib.writeSlabList, hs', if_true, writeToSlabs, hs]
      rfl
    · have hs' : Lib.slabSelect t (slabToLib s) = false := by
        simpa [Lib.slabSelect, slabMatches, slabToLib] using hs
      simp only [List.map_cons, Lib.writeSlabList, hs', writeToSlabs,
        Bool.false_eq_true, if_false, eq_false hs]
      exact congrArg (slabToLib s :: ·) ih

theorem dbToLib_write {V : Type} (db : DB V) (ts : TagSet) (t : Int) (v : V)
    (now : Int) :
    dbToLib (db.write ts t v now) = (dbToLib db).write ts t v now := by
  unfold DB.write Lib.TinyTSDB.write dbToLib
  simp only
  congr 1
  funext k
  by_cases hk : k = TagSet.id ts
  · have hgetD : ((db.hot_slabs (TagSet.id ts)).map (List.map slabToLib)).getD [] =
        ((db.hot_slabs (TagSet.id ts)).getD []).map slabToLib := by
      cases db.hot_slabs (TagSet.id ts) <;> rfl
    have htid : Lib.tagSetId ts = TagSet.id ts := rfl
    simp only [htid, hk, if_true, hgetD, writeSlabList_toLib]
    rfl
  · have htid : Lib.tagSetId ts = TagSet.id ts := rfl
    simp only [htid, hk, if_false]

theorem collect_toLib {V : Type} (s : Slab V) (a b : Int) :
    Lib.Slab.collect (slabToLib s) a b = s.collect a b := by
  unfold Lib.Slab.collect Slab.collect slabToLib
  rfl

theorem flatMap_collect_toLib {V : Type} (slabs : List (Slab V)) (a b : Int) :
    ((slabs.map slabToLib).flatMap fun s => Lib.Slab.collect s a b) =
      slabs.flatMap fun s => s.collect a b := by
  induction slabs with
  | nil => rfl
  | cons s rest ih =>
    simp only [List.map_cons, List.flatMap_cons, ih, collect_toLib]

theorem dbToLib_read {V : Type} (db : DB V) (ts : TagSet) (a b : Int) :
    (dbToLib db).read ts a b = db.read ts a b := by
  have htid : Lib.tagSetId ts = TagSet.id ts := rfl
  cases h : db.hot_slabs (TagSet.id ts) with
  | none =>
    simp [DB.read, Lib.TinyTSDB.read, dbToLib, htid, h]
  | some slabs =>
    simp only [DB.read, Lib.TinyTSDB.read, dbToLib, htid, h]
    show (List.insertionSort ptOrd
        ((slabs.map slabToLib).flatMap fun s => Lib.Slab.collect s a b)).unzip =
      (List.insertionSort ptOrd (slabs.flatMap fun s => s.collect a b)).unzip
    rw [flatMap_collect_toLib]

/-- One recorded `write` call: the tag set, sample time, sample value and
the wall-clock stamp the engine would read during that call. -/
structure WriteOp (V : Type) where
  tag_set : TagSet
  time : Int
  value : V
  now : Int

/-- Replay a sequence of writes against the `db.rs` engine. -/
def DB.runWrites {V : Type} (db : DB V) : List (WriteOp V) → DB V
  | [] => db
  | op :: rest => (db.write op.tag_set op.time op.value op.now).runWrites rest

/-- Replay a sequence of writes against the `lib.rs` engine. -/
def Lib.TinyTSDB.runWrites {V : Type} (db : Lib.TinyTSDB V) :
    List (WriteOp V) → Lib.TinyTSDB V
  | [] => db
  | op :: rest => (db.write op.tag_set op.time op.value op.now).runWrites rest

theorem runWrites_toLib {V : Type} (ops : List (WriteOp V)) (db : DB V) :
    (dbToLib db).runWrites ops = dbToLib (db.runWrites ops) := by
  induction ops generalizing db with
  | nil => rfl
  | cons op rest ih =>
    simp only [DB.runWrites, Lib.TinyTSDB.runWrites, ← dbToLib_write]
    exact ih _

/-- C10: the two engines in the repository are observationally equivalent —
for every configuration, every write sequence and every subsequent read,
`DB` (`db.rs`) and `TinyTSDB` (`lib.rs`) return the same series. -/
theorem engines_observationally_equivalent :
    ∀ (V : Type) (slab_duration : Int) (ops : List (WriteOp V)) (ts : TagSet)
      (a b : Int),
      ((DB.new V ⟨slab_duration⟩).runWrites ops).read ts a b =
        ((Lib.TinyTSDB.new V ⟨slab_duration⟩).runWrites ops).read ts a b := by
  intro V d ops ts a b
  have hnew : dbToLib (DB.new V ⟨d⟩) = Lib.TinyTSDB.new V ⟨d⟩ := rfl
  rw [← hnew, runWrites_toLib, dbToLib_read]

/-- A parse failure, the error the spec says the parser surfaces. -/
structure ParseError where
  message : String
deriving DecidableEq

/-- Token of the tag grammar. -/
inductive Tok where
  | lit (s : String)
  | comma
  | assign
  | eqOp
  | neqOp
  | andTok
  | orTok
deriving DecidableEq

/-- Scan a quoted literal up to the closing quote; `none` when the literal
is unterminated. -/
def takeQuoted : List Char → Option (List Char × List Char)
  | [] => none
  | c :: rest =>
    if c = '"' then some ([], rest)
    else (takeQuoted rest).map fun pr => (c :: pr.1, pr.2)

/-- Modelled from the spec: the lexical part of the `tags.pest` grammar,
which `tags.rs` references (`#[grammar = "tags.pest"]`) but which is not
part of `src/`. Follows spec §4.3/§6: quoted-string operands (quotes
stripped, no escapes), `=`, `==`, `!=`, `,`, and the connectives `and` /
`or`; anything else is a parse failure. `fuel` bounds the recursion and is
always supplied large enough. -/
def tokenize (fuel : Nat) (cs : List Char) : Except ParseError (List Tok) :=
  match fuel with
  | 0 => Except.error ⟨"internal: fuel exhausted"⟩
  | Nat.succ fuel =>
    match cs with
    | [] => Except.ok []
    | c :: rest =>
      if c = ' ' ∨ c = '\t' ∨ c = '\n' ∨ c = '\r' then tokenize fuel rest
      else if c = ',' then (tokenize fuel rest).map (Tok.comma :: ·)
      else if c = '=' then
        match rest with
        | '=' :: rest2 => (tokenize fuel rest2).map (Tok.eqOp :: ·)
        | _ => (tokenize fuel rest).map (Tok.assign :: ·)
      else if c = '!' then
        match rest with
        | '=' :: rest2 => (tokenize fuel rest2).map (Tok.neqOp :: ·)
        | _ => Except.error ⟨"syntax does not match the grammar"⟩
      else if c = '"' then
        match takeQuoted rest with
        | none => Except.error ⟨"unterminated quoted literal"⟩
        | some (content, rest2) =>
          (tokenize fuel rest2).map (Tok.lit (String.mk content) :: ·)
      else if c.isAlpha then
        match (c :: rest).span (fun ch => ch.isAlpha) with
        | (word, rest2) =>
          if String.mk word = "and" then (tokenize fuel rest2).map (Tok.andTok :: ·)
          else if String.mk word = "or" then (tokenize fuel rest2).map (Tok.orTok :: ·)
          else Except.error ⟨"unknown connective token"⟩
      else Except.error ⟨"syntax does not match the grammar"⟩

/-- Modelled from the spec: one `Equality` production
(`QuotedString ('==' | '!=') QuotedString`, spec §4.3). -/
def parseEqualityToks : List Tok → Except ParseError (Equality × List Tok)
  | Tok.lit l :: Tok.eqOp :: Tok.lit r :: rest =>
    Except.ok (⟨EqualityOp.Equals, l, r⟩, rest)
  | Tok.lit l :: Tok.neqOp :: Tok.lit r :: rest =>
    Except.ok (⟨EqualityOp.NotEquals, l, r⟩, rest)
  | _ => Except.error ⟨"expected an equality"⟩

/-- Modelled from the spec: the right-recursive `Logical` production
(`Equality (('and' | 'or') Logical)?`, spec §4.3), combined with the AST
construction that `tags.rs: Logical::parse` performs on the parse tree. -/
def parseLogicalToks (fuel : Nat) (toks : List Tok) : Except ParseError Logical :=
  match fuel with
  | 0 => Except.error ⟨"internal: fuel exhausted"⟩
  | Nat.succ fuel =>
    match parseEqualityToks toks with
    | Except.error e => Except.error e
    | Except.ok (e, rest) =>
      match rest with
      | [] => Except.ok (Logical.Just e)
      | Tok.andTok :: rest2 =>
        (parseLogicalToks fuel rest2).map (Logical.Also e LogicalOp.And ·)
      | Tok.orTok :: rest2 =>
        (parseLogicalToks fuel rest2).map (Logical.Also e LogicalOp.Or ·)
      | _ => Except.error ⟨"expected a connective"⟩

/-- `HashMap::insert` on the entry list: replace the value of an existing
key in place, append a new key at the end. -/
def insertPair (ts : TagSet) (k v : String) : TagSet :=
  match ts with
  | [] => [(k, v)]
  | kv :: rest => if kv.1 = k then (k, v) :: rest else kv :: insertPair rest k v

/-- Modelled from the spec: the `TagSet` production
(`Assignment (',' Assignment)*`, `Assignment ::= QuotedString '=' QuotedString`,
spec §4.3), combined with the map construction of `tags.rs: TagSet::parse`
(each assignment inserted in textual order). -/
def parseTagSetToks (fuel : Nat) (toks : List Tok) (acc : TagSet) :
    Except ParseError TagSet :=
  match fuel with
  | 0 => Except.error ⟨"internal: fuel exhausted"⟩
  | Nat.succ fuel =>
    match toks with
    | Tok.lit k :: Tok.assign :: Tok.lit v :: rest =>
      match rest with
      | [] => Except.ok (insertPair acc k v)
      | Tok.comma :: rest2 => parseTagSetToks fuel rest2 (insertPair acc k v)
      | _ => Except.error ⟨"expected a comma"⟩
    | _ => Except.error ⟨"expected an assignment"⟩

/-- Modelled from the spec: what `TagsParser::parse(Rule::Logical, input)`
plus the AST rebuild yields — the `Logical` AST, or a `ParseError` for input
that does not conform to the grammar. -/
def pestParseLogical (input : String) : Except ParseError Logical :=
  match tokenize (input.data.length + 1) input.data with
  | Except.error e => Except.error e
  | Except.ok toks => parseLogicalToks (toks.length + 1) toks

/-- Modelled from the spec: what `TagsParser::parse(Rule::TagSet, input)`
plus the map rebuild yields. -/
def pestParseTagSet (input : String) : Except ParseError TagSet :=
  match tokenize (input.data.length + 1) input.data with
  | Except.error e => Except.error e
  | Except.ok toks => parseTagSetToks (toks.length + 1) toks []

/-- The observable outcome of a Rust function that may panic. -/
inductive PanicOr (α : Type) where
  | panicked
  | ok (a : α)
deriving DecidableEq

/-- `tags.rs: Logical::parse`: calls `.unwrap()` (the call is marked
`// fixme` in the source) on the parse result, so a failed parse panics
instead of returning the error to the caller. -/
def Logical.parse (input : String) : PanicOr Logical :=
  match pestParseLogical input with
  | Except.error _ => PanicOr.panicked
  | Except.ok l => PanicOr.ok l

/-- `tags.rs: TagSet::parse`: the same `.unwrap()` panic on a failed parse. -/
def TagSet.parse (input : String) : PanicOr TagSet :=
  match pestParseTagSet input with
  | Except.error _ => PanicOr.panicked
  | Except.ok ts => PanicOr.ok ts

/-- C5: non-conforming input (empty input, a truncated expression, an
unknown connective, an unterminated literal, a trailing comma) makes the
underlying parse fail, but `Logical::parse` and `TagSet::parse` `.unwrap()`
that result — the failure mode observed by the caller is a panic, not a
surfaced `ParseError`; well-formed input parses to the expected AST. -/
theorem parse_failure_panics :
    Logical.parse "" = PanicOr.panicked ∧
    TagSet.parse "" = PanicOr.panicked ∧
    (pestParseLogical "").toOption = none ∧
    (pestParseTagSet "").toOption = none ∧
    Logical.parse "\"host\" ==" = PanicOr.panicked ∧
    Logical.parse "\"a\" == \"b\" nor \"c\" == \"d\"" = PanicOr.panicked ∧
    Logical.parse "\"host" = PanicOr.panicked ∧
    TagSet.parse "\"a\" = \"A\", " = PanicOr.panicked ∧
    Logical.parse "\"host\" == \"123\"" =
      PanicOr.ok (Logical.Just ⟨EqualityOp.Equals, "host", "123"⟩) ∧
    Logical.parse "\"host\" == \"123\" and \"region\" == \"us-west\"" =
      PanicOr.ok (Logical.Also ⟨EqualityOp.Equals, "host", "123"⟩ LogicalOp.And
        (Logical.Just ⟨EqualityOp.Equals, "region", "us-west"⟩)) ∧
    TagSet.parse "\"a\" = \"A\", \"b\" = \"B\"" =
      PanicOr.ok [("a", "A"), ("b", "B")] := by
  decide
